import Mathlib

/-!
Shallow embedding of the rock-physics effective-medium module `rockphypy/EM.py`
(functions `VRH`, `HS`, `PQ_vectorize`, `Berrymann_func`, `Berrymann_sc`,
`OConnell_Budiansky`, `OConnell_Budiansky_fl`) together with theorems settling
the specification claims about them.

Purely rational arithmetic (`VRH`, `HS`, `OConnell_Budiansky`) is embedded over
`ℚ` so that concrete instances evaluate by `decide`.  The shape-factor code
(`PQ_vectorize` and the Berryman self-consistent residual), which uses
`arccos`, `sqrt` and `cosh`, is embedded over `ℝ`.  Scalar Python division and
`x**-1`, which raise `ZeroDivisionError` on a zero denominator, are embedded
with an `Option` result (`none` = the call raises); NumPy elementwise array
arithmetic, which does not raise, is embedded with total field division.
The external root finder `scipy.optimize.fsolve` is abstracted as a function
argument returning a point estimate together with its convergence flag
(`full_output` data that the source never requests).
-/

set_option maxHeartbeats 1000000

namespace EM

/-- Elementwise product followed by sum: the embedding of `np.dot` on equal
length 1-d arrays, used by `VRH` (EM.py lines 29-33). -/
def npDot {α : Type} [Field α] (xs ys : List α) : α :=
  (List.zipWith (fun a b => a * b) xs ys).sum

/-- Embedding of `VRH(volumes, M)` (EM.py lines 29-34):
`M_v = np.dot(volumes, M)`, `M_r = np.dot(volumes, 1/M)**-1`,
`M_h = 0.5*(M_r + M_v)`; returns `(M_v, M_r, M_h)`. -/
def VRH {α : Type} [Field α] (volumes M : List α) : α × α × α :=
  (npDot volumes M,
   (npDot volumes (M.map fun m => 1 / m))⁻¹,
   (1 / 2) * ((npDot volumes (M.map fun m => 1 / m))⁻¹ + npDot volumes M))

/-- Embedding of `HS(f, K1, K2, G1, G2, bound)` (EM.py lines 92-102).  The
`bound == 'upper'` comparison selects the upper branch, anything else falls
through to the lower branch.  Each `if ... then none` guard records one scalar
division (or `**-1`) of the corresponding Python expression whose zero
denominator would raise `ZeroDivisionError`; when no guard trips the returned
values are exactly the Python ones. -/
def HS (f K1 K2 G1 G2 : ℚ) (bound : String) : Option (ℚ × ℚ) :=
  if bound = "upper" then
    if K2 - K1 = 0 then none else
    if K1 + 4 * G1 / 3 = 0 then none else
    if (K2 - K1)⁻¹ + f * (K1 + 4 * G1 / 3)⁻¹ = 0 then none else
    if 5 * G1 * (K1 + 4 * G1 / 3) = 0 then none else
    if G2 - G1 = 0 then none else
    if (G2 - G1)⁻¹ + 2 * f * ((K1 + 2 * G1) / (5 * G1 * (K1 + 4 * G1 / 3))) = 0 then none else
    some (K1 + (1 - f) / ((K2 - K1)⁻¹ + f * (K1 + 4 * G1 / 3)⁻¹),
          G1 + (1 - f) / ((G2 - G1)⁻¹ + 2 * f * ((K1 + 2 * G1) / (5 * G1 * (K1 + 4 * G1 / 3)))))
  else
    if K1 - K2 = 0 then none else
    if K2 + 4 * G2 / 3 = 0 then none else
    if (K1 - K2)⁻¹ + (1 - f) * (K2 + 4 * G2 / 3)⁻¹ = 0 then none else
    if 5 * G2 * (K2 + 4 * G2 / 3) = 0 then none else
    if G1 - G2 = 0 then none else
    if (G1 - G2)⁻¹ + 2 * (1 - f) * ((K2 + 2 * G2) / (5 * G2 * (K2 + 4 * G2 / 3))) = 0 then none else
    some (K2 + f / ((K1 - K2)⁻¹ + (1 - f) * (K2 + 4 * G2 / 3)⁻¹),
          G2 + f / ((G1 - G2)⁻¹ + 2 * (1 - f) * ((K2 + 2 * G2) / (5 * G2 * (K2 + 4 * G2 / 3)))))

/-- Embedding of `OConnell_Budiansky(K0, G0, crd)` (EM.py lines 461-466):
`nu0 = (3*K0-2*G0)/(6*K0+2*G0)`, `nu_eff = nu0*(1-16*crd/9)`, then the closed
forms for `K_dry` and `G_dry`. -/
def OConnell_Budiansky (K0 G0 crd : ℚ) : ℚ × ℚ :=
  let nu0 := (3 * K0 - 2 * G0) / (6 * K0 + 2 * G0)
  let nu_eff := nu0 * (1 - 16 * crd / 9)
  (K0 * (1 - 16 * (1 - nu_eff ^ 2) * crd / (9 * (1 - 2 * nu_eff))),
   G0 * (1 - 32 * (1 - nu_eff) * (5 - nu_eff) * crd / (45 * (2 - nu_eff))))

/-- Three-list `zipWith`, the embedding of elementwise NumPy arithmetic over
three equal-length arrays. -/
def zipWith3 {α β γ δ : Type} (f : α → β → γ → δ) : List α → List β → List γ → List δ
  | a :: as, b :: bs, c :: cs => f a b c :: zipWith3 f as bs cs
  | _, _, _ => []

open scoped Classical in
/-- Caller-visible state of the aspect-ratio array after `PQ_vectorize`
returns.  EM.py line 397 binds `alpha_ = alpha` (an alias of the caller's
array, not a copy) and line 398 executes `alpha_[alpha==1] = 0.999`, writing
through the alias; so after the call every entry of the caller's array that
was exactly 1 holds 0.999. -/
noncomputable def alphaAfterCall (alpha : List ℝ) : List ℝ :=
  alpha.map fun a => if a = 1 then 999 / 1000 else a

open scoped Classical in
/-- Shape integral `theta` of EM.py lines 400-402, as a function of one
(already clamped) aspect-ratio entry.  For `alpha_ < 1` the oblate branch
(line 400) with `np.arccos` and `np.sqrt`; for `alpha_ > 1` the prolate branch
(line 402), whose subtrahend is literally `np.cosh(alpha_)**-1`, the
reciprocal of the hyperbolic cosine.  An entry exactly equal to 1 is left
uninitialised by the source (`np.empty`), which cannot occur after clamping;
it is represented by the junk value 0. -/
noncomputable def theta_of (a : ℝ) : ℝ :=
  if a < 1 then
    a / (1 - a ^ 2) ^ ((3 : ℝ) / 2) * (Real.arccos a - a * Real.sqrt (1 - a ^ 2))
  else if 1 < a then
    a / (a ^ 2 - 1) ^ ((3 : ℝ) / 2) *
      (a * (a ^ 2 - 1) ^ ((1 : ℝ) / 2) - (Real.cosh a)⁻¹)
  else 0

/-- General-branch factors `(P_i, Q_i)` of EM.py lines 404-421 for one entry:
the intermediate `f`, the terms `A`, `B`, `R`, the polynomials `F1..F9`, then
`Tiijj = 3*F1/F2`, `Tijij = Tiijj/3 + 2/F3 + 1/F4 + (F4*F5+F6*F7-F8*F9)/(F2*F4)`,
`P = Tiijj/3`, `Q = (Tijij - P)/5`. -/
noncomputable def PQentry (Km Gm Ki Gi a : ℝ) : ℝ × ℝ :=
  let theta := theta_of a
  let f := a ^ 2 * (3 * theta - 2) / (1 - a ^ 2)
  let A := Gi / Gm - 1
  let B := (Ki / Km - Gi / Gm) / 3
  let R := Gm / (Km + (4 / 3) * Gm)
  let F1 := 1 + A * ((3 / 2) * (f + theta) - R * ((3 / 2) * f + (5 / 2) * theta - 4 / 3))
  let F2 := 1 + A * (1 + (3 / 2) * (f + theta) - R * ((3 / 2) * f + (5 / 2) * theta)) +
    B * (3 - 4 * R) +
    A * (A + 3 * B) * (3 / 2 - 2 * R) * (f + theta - R * (f - theta + 2 * theta ^ 2))
  let F3 := 1 + A * (1 - f - (3 / 2) * theta + R * (f + theta))
  let F4 := 1 + (A / 4) * (f + 3 * theta - R * (f - theta))
  let F5 := A * (-f + R * (f + theta - 4 / 3)) + B * theta * (3 - 4 * R)
  let F6 := 1 + A * (1 + f - R * (f + theta)) + B * (1 - theta) * (3 - 4 * R)
  let F7 := 2 + (A / 4) * (3 * f + 9 * theta - R * (3 * f + 5 * theta)) +
    B * theta * (3 - 4 * R)
  let F8 := A * (1 - 2 * R + (f / 2) * (R - 1) + (theta / 2) * (5 * R - 3)) +
    B * (1 - theta) * (3 - 4 * R)
  let F9 := A * ((R - 1) * f - R * theta) + B * theta * (3 - 4 * R)
  let Tiijj := 3 * F1 / F2
  let Tijij := Tiijj / 3 + 2 / F3 + 1 / F4 + (F4 * F5 + F6 * F7 - F8 * F9) / (F2 * F4)
  let P := Tiijj / 3
  let Q := (Tijij - P) / 5
  (P, Q)

open scoped Classical in
/-- Embedding of `PQ_vectorize(Km, Gm, Ki, Gi, alpha)` (EM.py lines 378-426).
Entries equal to 1 are clamped to 0.999 (line 398) before the general-branch
computation.  The final masks `P[alpha==1]` and `Q[alpha==1]` (lines 423 and
425) are evaluated on the function-local name `alpha`, which line 397 left
aliased to the same (now mutated) array, so the test is against the clamped
entry value. -/
noncomputable def PQ_vectorize (Km Gm : ℝ) (Ki Gi alpha : List ℝ) : List ℝ × List ℝ :=
  let alphaC := alphaAfterCall alpha
  let kesai := Gm / 6 * (9 * Km + 8 * Gm) / (Km + 2 * Gm)
  (zipWith3 (fun ki _gi a =>
      if a = 1 then (Km + 4 * Gm / 3) / (ki + 4 * Gm / 3)
      else (PQentry Km Gm ki _gi a).1) Ki Gi alphaC,
   zipWith3 (fun ki _gi a =>
      if a = 1 then (Gm + kesai) / (_gi + kesai)
      else (PQentry Km Gm ki _gi a).2) Ki Gi alphaC)

/-- Embedding of `Berrymann_func(params, K, G, X, Alpha)` (EM.py lines
443-447): `P, Q = PQ_vectorize(K_sc, G_sc, K, G, Alpha)`;
`eq1 = np.sum(X*(K-K_sc)*P)`, `eq2 = np.sum(X*(G-G_sc)*Q)`. -/
noncomputable def Berrymann_func (params : ℝ × ℝ) (K G X Alpha : List ℝ) : ℝ × ℝ :=
  let P := (PQ_vectorize params.1 params.2 K G Alpha).1
  let Q := (PQ_vectorize params.1 params.2 K G Alpha).2
  ((zipWith3 (fun x k p => x * (k - params.1) * p) X K P).sum,
   (zipWith3 (fun x g q => x * (g - params.2) * q) X G Q).sum)

/-- Arithmetic mean of a 1-d array: the embedding of `ndarray.mean()`. -/
noncomputable def npMean (l : List ℝ) : ℝ := l.sum / l.length

/-- Outcome of one `scipy.optimize.fsolve` run: the point estimate `x` that
`fsolve` always returns, and the convergence flag (`ier == 1`) that is only
available through `full_output` and that the source never requests. -/
structure FsolveOut where
  x : ℝ × ℝ
  converged : Bool

/-- Type of the abstracted root finder: it receives the initial guess and the
residual function and produces an `FsolveOut`. -/
def Solver : Type := (ℝ × ℝ) → ((ℝ × ℝ) → ℝ × ℝ) → FsolveOut

/-- Embedding of `Berrymann_sc(K, G, X, Alpha)` (EM.py lines 375-376),
parametrised by the root finder: `fsolve(Berrymann_func, (K.mean(), G.mean()),
args=(K,G,X,Alpha))`, whose bare return value (the point estimate, with no
convergence information) is passed on unchanged as `(K_sc, G_sc)`. -/
noncomputable def Berrymann_sc (fsolve : Solver) (K G X Alpha : List ℝ) : ℝ × ℝ :=
  (fsolve (npMean K, npMean G) (fun p => Berrymann_func p K G X Alpha)).x

/-- Embedding of `OC_R_funcs(params, crd, nu_0, w)` (EM.py lines 494-511). -/
noncomputable def OC_R_funcs (params : ℝ × ℝ) (crd nu_0 w : ℝ) : ℝ × ℝ :=
  let nu_eff := params.1
  let D := params.2
  (45 / 16 * (nu_0 - nu_eff) / (1 - nu_eff ^ 2) * (2 - nu_eff) /
      (D * (1 + 3 * nu_0) * (2 - nu_eff) - 2 * (1 - 2 * nu_0)) - crd,
   crd * D ^ 2 -
      (crd + 9 / 16 * (1 - 2 * nu_eff) / (1 - nu_0 ^ 2) + 3 * w / (4 * Real.pi)) * D +
      9 / 16 * (1 - 2 * nu_eff) / (1 - nu_0 ^ 2))

/-- Embedding of `OConnell_Budiansky_fl(K0, G0, Kfl, crd, alpha)` (EM.py lines
468-492), parametrised by the root finder: `nu_eff, D = fsolve(OC_R_funcs,
(0.2, 0.9), args=(crd, nu0, w))`, then the closed forms for `K_sat`, `G_sat`
computed from the bare point estimate. -/
noncomputable def OConnell_Budiansky_fl (fsolve : Solver) (K0 G0 Kfl crd alpha : ℝ) :
    ℝ × ℝ :=
  let nu0 := (3 * K0 - 2 * G0) / (6 * K0 + 2 * G0)
  let w := Kfl / alpha / K0
  let sol := fsolve (2 / 10, 9 / 10) (fun p => OC_R_funcs p crd nu0 w)
  let nu_eff := sol.x.1
  let D := sol.x.2
  (K0 * (1 - 16 * (1 - nu_eff ^ 2) * crd * D / (9 * (1 - 2 * nu_eff))),
   G0 * (1 - 32 / 45 * (1 - nu_eff) * (D + 3 / (2 - nu_eff)) * crd))

/-- A mock root-finder run that fails to converge: its `ier` flag is not 1 and
its last iterate is the point `(2, 3)`. -/
def solverDiverged : Solver := fun _ _ => ⟨(2, 3), false⟩

/-- A mock root-finder run that reports convergence at the same point `(2, 3)`. -/
def solverConverged : Solver := fun _ _ => ⟨(2, 3), true⟩

/-- A mock root-finder run that returns its initial guess and reports
convergence; used to instantiate solver-parametric theorems at a concrete
input. -/
def solverId : Solver := fun g _ => ⟨g, true⟩

/-- The inverse hyperbolic cosine, written as the spec and Berryman (1980)
require for the prolate branch of the shape integral (`arccosh` in the claim);
stated through its closed logarithmic form.  This definition follows the
claim's words and exists only to be compared with the source's
`np.cosh(alpha_)**-1`. -/
noncomputable def arccoshSpec (x : ℝ) : ℝ := Real.log (x + Real.sqrt (x ^ 2 - 1))

/-! ## Helper lemmas -/

/-- A `zipWith`-product sum over equal-length lists is the corresponding
index-wise finite sum. -/
theorem npDot_eq_sum {α : Type} [Field α] :
    ∀ (xs ys : List α), xs.length = ys.length →
      npDot xs ys = ∑ i ∈ Finset.range xs.length, xs.getD i 0 * ys.getD i 0 := by
  intro xs
  induction xs with
  | nil => intro ys _; simp [npDot]
  | cons x t ih =>
    intro ys hlen
    cases ys with
    | nil => simp at hlen
    | cons y r =>
      simp only [List.length_cons] at hlen
      simp only [npDot, List.zipWith_cons_cons, List.sum_cons, List.length_cons,
        Finset.sum_range_succ']
      have := ih r (by omega)
      simp only [npDot] at this
      simp [this, add_comm]

/-- Entries of an elementwise-mapped list through `getD` at an in-range
index. -/
theorem getD_map_of_lt {α : Type} [Field α] (f : α → α) (l : List α) (i : ℕ)
    (h : i < l.length) : (l.map f).getD i 0 = f (l.getD i 0) := by
  rw [List.getD_eq_getElem?_getD, List.getD_eq_getElem?_getD]
  rw [List.getElem?_eq_getElem (by simpa using h), List.getElem?_eq_getElem h]
  simp

/-- A dot product of elementwise-nonnegative lists is nonnegative. -/
theorem npDot_nonneg : ∀ (xs ms : List ℚ), (∀ v ∈ xs, 0 ≤ v) → (∀ m ∈ ms, 0 ≤ m) →
    0 ≤ npDot xs ms := by
  intro xs
  induction xs with
  | nil => intro ms _ _; simp [npDot]
  | cons v t ih =>
    intro ms hx hm
    cases ms with
    | nil => simp [npDot]
    | cons m r =>
      have h1 : 0 ≤ v * m :=
        mul_nonneg (hx v (by simp)) (hm m (by simp))
      have h2 : 0 ≤ npDot t r :=
        ih r (fun a ha => hx a (by simp [ha])) (fun a ha => hm a (by simp [ha]))
      simp only [npDot, List.zipWith_cons_cons, List.sum_cons]
      simp only [npDot] at h2
      linarith

/-- With nonnegative weights of positive total and positive moduli, the
weighted sum of inverse moduli is positive. -/
theorem npDot_inv_pos : ∀ (xs ms : List ℚ), xs.length = ms.length → 0 < xs.sum →
    (∀ v ∈ xs, 0 ≤ v) → (∀ m ∈ ms, 0 < m) →
    0 < npDot xs (ms.map fun m => 1 / m) := by
  intro xs
  induction xs with
  | nil => intro ms _ hpos _ _; simp at hpos
  | cons v t ih =>
    intro ms hlen hpos hx hm
    cases ms with
    | nil => simp at hlen
    | cons m r =>
      simp only [List.length_cons] at hlen
      have hm0 : 0 < m := hm m (by simp)
      have htail_nonneg : 0 ≤ npDot t (r.map fun m => 1 / m) := by
        refine npDot_nonneg t _ (fun a ha => hx a (by simp [ha])) ?_
        intro a ha
        simp only [List.mem_map] at ha
        obtain ⟨b, hb, rfl⟩ := ha
        have := hm b (by simp [hb])
        positivity
      rcases eq_or_lt_of_le (hx v (by simp)) with hv0 | hvpos
      · have hts : 0 < t.sum := by
          simp only [List.sum_cons, ← hv0] at hpos
          linarith
        have := ih r (by omega) hts (fun a ha => hx a (by simp [ha]))
          (fun a ha => hm a (by simp [ha]))
        simp only [npDot, List.map_cons, List.zipWith_cons_cons, List.sum_cons, ← hv0]
        simp only [npDot] at this
        linarith
      · have hterm : 0 < v * (1 / m) := by positivity
        simp only [npDot, List.map_cons, List.zipWith_cons_cons, List.sum_cons]
        simp only [npDot] at htail_nonneg
        linarith

/-- Discrete weighted Cauchy-Schwarz in the arithmetic-harmonic form: the
square of the total weight is at most the product of the weighted sum of
moduli and the weighted sum of inverse moduli. -/
theorem sum_sq_le_npDot_mul : ∀ (xs ms : List ℚ), xs.length = ms.length →
    (∀ v ∈ xs, 0 ≤ v) → (∀ m ∈ ms, 0 < m) →
    xs.sum ^ 2 ≤ npDot xs ms * npDot xs (ms.map fun m => 1 / m) := by
  intro xs
  induction xs with
  | nil => intro ms _ _ _; simp [npDot]
  | cons v t ih =>
    intro ms hlen hx hm
    cases ms with
    | nil => simp at hlen
    | cons m r =>
      simp only [List.length_cons] at hlen
      have hm0 : 0 < m := hm m (by simp)
      have hv : 0 ≤ v := hx v (by simp)
      have hxt : ∀ a ∈ t, 0 ≤ a := fun a ha => hx a (by simp [ha])
      have hmr : ∀ a ∈ r, 0 < a := fun a ha => hm a (by simp [ha])
      have hs : 0 ≤ t.sum := List.sum_nonneg hxt
      have hV : 0 ≤ npDot t r := npDot_nonneg t r hxt (fun a ha => (hmr a ha).le)
      have hR : 0 ≤ npDot t (r.map fun m => 1 / m) := by
        refine npDot_nonneg t _ hxt ?_
        intro a ha
        simp only [List.mem_map] at ha
        obtain ⟨b, hb, rfl⟩ := ha
        have := hmr b hb
        positivity
      have hIH : t.sum ^ 2 ≤ npDot t r * npDot t (r.map fun m => 1 / m) :=
        ih r (by omega) hxt hmr
      set s := t.sum with hsdef
      set V := npDot t r with hVdef
      set R := npDot t (r.map fun m => 1 / m) with hRdef
      have hXY2 : (2 * m * s) ^ 2 ≤ (m ^ 2 * R + V) ^ 2 := by
        nlinarith [sq_nonneg (m ^ 2 * R - V), mul_nonneg (sq_nonneg m) (sub_nonneg.mpr hIH)]
      have hX : 0 ≤ m ^ 2 * R + V := by positivity
      have hY : 0 ≤ 2 * m * s := by positivity
      have hstep : 2 * m * s ≤ m ^ 2 * R + V := by nlinarith [hXY2, hX, hY]
      have key : 2 * v * s ≤ v * m * R + v * (1 / m) * V := by
        have h3 : v * (1 / m) * (2 * m * s) ≤ v * (1 / m) * (m ^ 2 * R + V) :=
          mul_le_mul_of_nonneg_left hstep (by positivity)
        have e1 : v * (1 / m) * (2 * m * s) = 2 * v * s := by
          field_simp
          ring
        have e2 : v * (1 / m) * (m ^ 2 * R + V) = v * m * R + v * (1 / m) * V := by
          field_simp
          ring
        rw [e1, e2] at h3
        exact h3
      have hexp : (v * m + V) * (v * (1 / m) + R) =
          v ^ 2 + v * m * R + v * (1 / m) * V + V * R := by
        field_simp
        ring
      simp only [npDot, List.map_cons, List.zipWith_cons_cons, List.sum_cons]
      simp only [npDot] at hVdef hRdef
      rw [← hVdef, ← hRdef, ← hsdef, hexp]
      nlinarith [hIH, key]

/-- Length of a three-list `zipWith` over equal-length lists. -/
theorem zipWith3_length {α β γ δ : Type} (f : α → β → γ → δ) :
    ∀ (as : List α) (bs : List β) (cs : List γ), bs.length = as.length →
      cs.length = as.length → (zipWith3 f as bs cs).length = as.length := by
  intro as
  induction as with
  | nil =>
    intro bs cs h1 h2
    simp only [List.length_nil] at h1 h2
    rw [List.length_eq_zero] at h1 h2
    subst h1
    subst h2
    rfl
  | cons a as ih =>
    intro bs cs h1 h2
    cases bs with
    | nil => simp at h1
    | cons b bs' =>
      cases cs with
      | nil => simp at h2
      | cons c cs' =>
        simp only [List.length_cons] at h1 h2 ⊢
        rw [show zipWith3 f (a :: as) (b :: bs') (c :: cs') =
          f a b c :: zipWith3 f as bs' cs' from rfl]
        simp only [List.length_cons]
        rw [ih bs' cs' (by omega) (by omega)]

/-- A three-list `zipWith` sum over equal-length lists is the corresponding
index-wise finite sum. -/
theorem zipWith3_sum_eq (f : ℝ → ℝ → ℝ → ℝ) :
    ∀ (as bs cs : List ℝ), bs.length = as.length → cs.length = as.length →
      (zipWith3 f as bs cs).sum =
        ∑ i ∈ Finset.range as.length, f (as.getD i 0) (bs.getD i 0) (cs.getD i 0) := by
  intro as
  induction as with
  | nil =>
    intro bs cs h1 h2
    simp only [List.length_nil] at h1 h2
    rw [List.length_eq_zero] at h1 h2
    subst h1
    subst h2
    rfl
  | cons a as ih =>
    intro bs cs h1 h2
    cases bs with
    | nil => simp at h1
    | cons b bs' =>
      cases cs with
      | nil => simp at h2
      | cons c cs' =>
        simp only [List.length_cons] at h1 h2
        have hrec := ih bs' cs' (by omega) (by omega)
        simp only [List.length_cons]
        rw [show zipWith3 f (a :: as) (b :: bs') (c :: cs') =
          f a b c :: zipWith3 f as bs' cs' from rfl,
          List.sum_cons, Finset.sum_range_succ', hrec]
        simp [add_comm]

/-- Both outputs of `PQ_vectorize` have the common input length. -/
theorem PQ_vectorize_length (Km Gm : ℝ) (Ki Gi alpha : List ℝ)
    (hG : Gi.length = Ki.length) (hA : alpha.length = Ki.length) :
    (PQ_vectorize Km Gm Ki Gi alpha).1.length = Ki.length ∧
      (PQ_vectorize Km Gm Ki Gi alpha).2.length = Ki.length := by
  refine ⟨?_, ?_⟩ <;>
    exact zipWith3_length _ Ki Gi _ hG (by simp [alphaAfterCall, hA])

/-- C5: the Berryman self-consistent residual at trial point `(Ksc, Gsc)` is
the pair of weighted sums `Σ X_i (K_i - Ksc) P_i` and `Σ X_i (G_i - Gsc) Q_i`
with `(P, Q) = PQ_vectorize (Ksc, Gsc, K, G, Alpha)`, and `Berrymann_sc`
starts the root finder from the arithmetic means of `K` and `G`. -/
theorem Berrymann_residual_and_guess (fs : Solver) (K G X Alpha : List ℝ)
    (Ksc Gsc : ℝ) (hG : G.length = K.length) (hX : X.length = K.length)
    (hA : Alpha.length = K.length) :
    Berrymann_func (Ksc, Gsc) K G X Alpha =
      (∑ i ∈ Finset.range K.length,
         X.getD i 0 * (K.getD i 0 - Ksc) * (PQ_vectorize Ksc Gsc K G Alpha).1.getD i 0,
       ∑ i ∈ Finset.range K.length,
         X.getD i 0 * (G.getD i 0 - Gsc) * (PQ_vectorize Ksc Gsc K G Alpha).2.getD i 0) ∧
      Berrymann_sc fs K G X Alpha =
        (fs (K.sum / K.length, G.sum / G.length)
          (fun p => Berrymann_func p K G X Alpha)).x := by
  have hP : (PQ_vectorize Ksc Gsc K G Alpha).1.length = K.length :=
    (PQ_vectorize_length Ksc Gsc K G Alpha hG hA).1
  have hQ : (PQ_vectorize Ksc Gsc K G Alpha).2.length = K.length :=
    (PQ_vectorize_length Ksc Gsc K G Alpha hG hA).2
  constructor
  · have e1 := zipWith3_sum_eq (fun x k p => x * (k - Ksc) * p) X K
      (PQ_vectorize Ksc Gsc K G Alpha).1 (by omega) (by omega)
    have e2 := zipWith3_sum_eq (fun x g q => x * (g - Gsc) * q) X G
      (PQ_vectorize Ksc Gsc K G Alpha).2 (by omega) (by omega)
    show ((zipWith3 (fun x k p => x * (k - Ksc) * p) X K
        (PQ_vectorize Ksc Gsc K G Alpha).1).sum,
      (zipWith3 (fun x g q => x * (g - Gsc) * q) X G
        (PQ_vectorize Ksc Gsc K G Alpha).2).sum) = _
    rw [e1, e2, hX]
  · rfl

/-- Witness for `Berrymann_residual_and_guess` at `K = [1, 2]`, `G = [3, 4]`,
`X = [5, 6]`, `Alpha = [2, 3]`, trial point `(1, 2)` and the identity mock
solver. -/
theorem Berrymann_residual_and_guess_witness :
    Berrymann_func (1, 2) [1, 2] [3, 4] [5, 6] [2, 3] =
      (∑ i ∈ Finset.range ([(1 : ℝ), 2] : List ℝ).length,
         ([(5 : ℝ), 6] : List ℝ).getD i 0 * (([(1 : ℝ), 2] : List ℝ).getD i 0 - 1) *
           (PQ_vectorize 1 2 [1, 2] [3, 4] [2, 3]).1.getD i 0,
       ∑ i ∈ Finset.range ([(1 : ℝ), 2] : List ℝ).length,
         ([(5 : ℝ), 6] : List ℝ).getD i 0 * (([(3 : ℝ), 4] : List ℝ).getD i 0 - 2) *
           (PQ_vectorize 1 2 [1, 2] [3, 4] [2, 3]).2.getD i 0) ∧
      Berrymann_sc solverId [1, 2] [3, 4] [5, 6] [2, 3] =
        (solverId (([(1 : ℝ), 2] : List ℝ).sum / ([(1 : ℝ), 2] : List ℝ).length,
            ([(3 : ℝ), 4] : List ℝ).sum / ([(3 : ℝ), 4] : List ℝ).length)
          (fun p => Berrymann_func p [1, 2] [3, 4] [5, 6] [2, 3])).x :=
  Berrymann_residual_and_guess solverId [1, 2] [3, 4] [5, 6] [2, 3] 1 2 rfl rfl rfl

/-- C2 (code bug): the clamping in `PQ_vectorize` writes through the alias
`alpha_ = alpha` into the caller's array.  After a call whose aspect-ratio
array is `[1]` the caller observes `[0.999]`, not the original `[1]`. -/
theorem PQ_mutates_caller_alpha :
    alphaAfterCall [1] = [999 / 1000] ∧ alphaAfterCall [1] ≠ [1] := by
  constructor
  · simp [alphaAfterCall]
  · intro h
    simp only [alphaAfterCall, List.map_cons, List.map_nil, if_pos rfl,
      List.cons.injEq, and_true] at h
    norm_num at h

/-- C1 (code bug): with `alpha = [1]` the returned `P` and `Q` are the
general-branch values evaluated at the clamped entry 0.999, not the spherical
closed forms: the overwrite masks `P[alpha==1]`, `Q[alpha==1]` of EM.py lines
423 and 425 are evaluated on the mutated array, where no entry equals 1 any
more. -/
theorem PQ_alpha_one_not_overwritten :
    (PQ_vectorize 1 1 [0] [0] [1]).1 = [(PQentry 1 1 0 0 (999 / 1000)).1] ∧
      (PQ_vectorize 1 1 [0] [0] [1]).2 = [(PQentry 1 1 0 0 (999 / 1000)).2] := by
  constructor <;>
  · simp only [PQ_vectorize, alphaAfterCall, List.map_cons, List.map_nil, if_pos rfl,
      zipWith3]
    norm_num

/-- C3 (code bug): the prolate shape integral computed by the source differs
from the spec's formula with the inverse hyperbolic cosine: at `alpha = 2` the
source subtracts `np.cosh(2)**-1` (the reciprocal of `cosh`), which is less
than 1, while `arccosh 2 = log (2 + sqrt 3)` is greater than 1. -/
theorem theta_prolate_sech_not_arccosh :
    theta_of 2 ≠ 2 / ((2 : ℝ) ^ 2 - 1) ^ ((3 : ℝ) / 2) *
      (2 * ((2 : ℝ) ^ 2 - 1) ^ ((1 : ℝ) / 2) - arccoshSpec 2) := by
  have hval : theta_of 2 = 2 / ((2 : ℝ) ^ 2 - 1) ^ ((3 : ℝ) / 2) *
      (2 * ((2 : ℝ) ^ 2 - 1) ^ ((1 : ℝ) / 2) - (Real.cosh 2)⁻¹) := by
    unfold theta_of
    rw [if_neg (by norm_num), if_pos (by norm_num)]
  rw [hval]
  intro h
  have hb : (0 : ℝ) < ((2 : ℝ) ^ 2 - 1) ^ ((3 : ℝ) / 2) :=
    Real.rpow_pos_of_pos (by norm_num) _
  have hfac : (2 : ℝ) / ((2 : ℝ) ^ 2 - 1) ^ ((3 : ℝ) / 2) ≠ 0 :=
    ne_of_gt (div_pos (by norm_num) hb)
  have hcancel := mul_left_cancel₀ hfac h
  have heq : (Real.cosh 2)⁻¹ = arccoshSpec 2 := by linarith
  have h1 : (Real.cosh 2)⁻¹ < 1 := inv_lt_one (by rw [Real.one_lt_cosh]; norm_num)
  have h2 : 1 < arccoshSpec 2 := by
    have h3 : arccoshSpec 2 = Real.log (2 + Real.sqrt 3) := by
      unfold arccoshSpec
      norm_num
    rw [h3]
    have hpos : (0 : ℝ) < 2 + Real.sqrt 3 := by positivity
    rw [Real.lt_log_iff_exp_lt hpos]
    have hsq : (17 / 10 : ℝ) < Real.sqrt 3 :=
      (Real.lt_sqrt (by norm_num)).mpr (by norm_num)
    have hexp : Real.exp 1 < 27183 / 10000 :=
      lt_trans Real.exp_one_lt_d9 (by norm_num)
    linarith
  linarith

/-- C4 counterexample: a non-converged root-finder run (`ier` flag not 1, last
iterate `(2, 3)`) makes `Berrymann_sc` return the plain pair `(2, 3)`, exactly
what it returns for a converged run at the same point: no distinguishable
non-convergence condition reaches the caller. -/
theorem solver_failure_returned_as_answer :
    (solverDiverged ((1 : ℝ), 1) (fun p => p)).converged = false ∧
      Berrymann_sc solverDiverged [1] [1] [1] [1] = (2, 3) ∧
      Berrymann_sc solverConverged [1] [1] [1] [1] = (2, 3) :=
  ⟨rfl, rfl, rfl⟩

/-- C4 amended: `Berrymann_sc` and `OConnell_Budiansky_fl` use only the point
estimate of the root-finder outcome; two solver runs with the same point
estimate and different convergence flags produce identical results, so
non-convergence is not reported and the last iterate is returned as if it were
a valid answer. -/
theorem solvers_ignore_convergence_flag (fs1 fs2 : Solver)
    (hx : ∀ g r, (fs1 g r).x = (fs2 g r).x) :
    (∀ K G X Alpha, Berrymann_sc fs1 K G X Alpha = Berrymann_sc fs2 K G X Alpha) ∧
      (∀ K0 G0 Kfl crd alpha, OConnell_Budiansky_fl fs1 K0 G0 Kfl crd alpha =
        OConnell_Budiansky_fl fs2 K0 G0 Kfl crd alpha) := by
  constructor
  · intro K G X Alpha
    unfold Berrymann_sc
    rw [hx]
  · intro K0 G0 Kfl crd alpha
    unfold OConnell_Budiansky_fl
    simp only [hx]

/-- Witness for `solvers_ignore_convergence_flag`: the diverged and converged
mock runs share the point estimate `(2, 3)`, so both solvers yield the same
results at a concrete input. -/
theorem solvers_ignore_convergence_flag_witness :
    Berrymann_sc solverDiverged [1] [2] [1] [1] =
        Berrymann_sc solverConverged [1] [2] [1] [1] ∧
      OConnell_Budiansky_fl solverDiverged 37 44 2 0 1 =
        OConnell_Budiansky_fl solverConverged 37 44 2 0 1 :=
  ⟨(solvers_ignore_convergence_flag solverDiverged solverConverged
      (fun _ _ => rfl)).1 [1] [2] [1] [1],
   (solvers_ignore_convergence_flag solverDiverged solverConverged
      (fun _ _ => rfl)).2 37 44 2 0 1⟩

/-- C9: with zero crack density the O'Connell-Budiansky dry-crack model returns
the background moduli `(K0, G0)` exactly. -/
theorem OConnell_Budiansky_zero_crd (K0 G0 : ℚ) (hK : 0 < K0) (hG : 0 < G0) :
    OConnell_Budiansky K0 G0 0 = (K0, G0) := by
  simp [OConnell_Budiansky]

/-- Witness for `OConnell_Budiansky_zero_crd` at `K0 = 37`, `G0 = 44`. -/
theorem OConnell_Budiansky_zero_crd_witness :
    (0 : ℚ) < 37 ∧ (0 : ℚ) < 44 ∧ OConnell_Budiansky 37 44 0 = (37, 44) :=
  ⟨by norm_num, by norm_num, OConnell_Budiansky_zero_crd 37 44 (by norm_num) (by norm_num)⟩

/-- C6: `VRH` returns the triple (Voigt, Reuss, Hill) where Voigt is the dot
product of volumes and moduli, Reuss the inverse of the dot product of volumes
with the elementwise inverses of the moduli, and Hill their arithmetic mean. -/
theorem VRH_formula (volumes M : List ℚ) (hlen : volumes.length = M.length)
    (hM : ∀ m ∈ M, m ≠ 0) :
    VRH volumes M =
      (∑ i ∈ Finset.range volumes.length, volumes.getD i 0 * M.getD i 0,
       (∑ i ∈ Finset.range volumes.length, volumes.getD i 0 * (M.getD i 0)⁻¹)⁻¹,
       ((∑ i ∈ Finset.range volumes.length, volumes.getD i 0 * M.getD i 0) +
        (∑ i ∈ Finset.range volumes.length, volumes.getD i 0 * (M.getD i 0)⁻¹)⁻¹) / 2) := by
  have h1 : npDot volumes M =
      ∑ i ∈ Finset.range volumes.length, volumes.getD i 0 * M.getD i 0 :=
    npDot_eq_sum volumes M hlen
  have h2 : npDot volumes (M.map fun m => 1 / m) =
      ∑ i ∈ Finset.range volumes.length, volumes.getD i 0 * (M.getD i 0)⁻¹ := by
    rw [npDot_eq_sum volumes _ (by simp [hlen])]
    refine Finset.sum_congr rfl ?_
    intro i hi
    rw [getD_map_of_lt _ _ _ (by rw [← hlen]; exact Finset.mem_range.mp hi), one_div]
  simp only [VRH, h1, h2, Prod.mk.injEq]
  refine ⟨trivial, trivial, by ring⟩

/-- Witness for `VRH_formula` with `volumes = [1/2, 1/2]`, `M = [1, 2]`. -/
theorem VRH_formula_witness :
    VRH [(1 : ℚ)/2, 1/2] [1, 2] =
      (∑ i ∈ Finset.range ([(1 : ℚ)/2, 1/2] : List ℚ).length,
         ([(1 : ℚ)/2, 1/2] : List ℚ).getD i 0 * ([(1 : ℚ), 2] : List ℚ).getD i 0,
       (∑ i ∈ Finset.range ([(1 : ℚ)/2, 1/2] : List ℚ).length,
         ([(1 : ℚ)/2, 1/2] : List ℚ).getD i 0 * (([(1 : ℚ), 2] : List ℚ).getD i 0)⁻¹)⁻¹,
       ((∑ i ∈ Finset.range ([(1 : ℚ)/2, 1/2] : List ℚ).length,
         ([(1 : ℚ)/2, 1/2] : List ℚ).getD i 0 * ([(1 : ℚ), 2] : List ℚ).getD i 0) +
        (∑ i ∈ Finset.range ([(1 : ℚ)/2, 1/2] : List ℚ).length,
         ([(1 : ℚ)/2, 1/2] : List ℚ).getD i 0 * (([(1 : ℚ), 2] : List ℚ).getD i 0)⁻¹)⁻¹) / 2) :=
  VRH_formula [(1 : ℚ)/2, 1/2] [1, 2] (by norm_num) (by norm_num)

/-- C7: for volumes that are nonnegative and sum to one and strictly positive
moduli, the `VRH` averages satisfy Reuss ≤ Hill ≤ Voigt. -/
theorem VRH_reuss_le_hill_le_voigt (volumes M : List ℚ)
    (hlen : volumes.length = M.length) (hvol : ∀ v ∈ volumes, 0 ≤ v)
    (hsum : volumes.sum = 1) (hM : ∀ m ∈ M, 0 < m) :
    (VRH volumes M).2.1 ≤ (VRH volumes M).2.2 ∧
      (VRH volumes M).2.2 ≤ (VRH volumes M).1 := by
  have hkey := sum_sq_le_npDot_mul volumes M hlen hvol hM
  rw [hsum, one_pow] at hkey
  have hR' : 0 < npDot volumes (M.map fun m => 1 / m) :=
    npDot_inv_pos volumes M hlen (by rw [hsum]; norm_num) hvol hM
  have hRV : (npDot volumes (M.map fun m => 1 / m))⁻¹ ≤ npDot volumes M := by
    rw [inv_eq_one_div, div_le_iff hR']
    linarith
  have hRpos : 0 < (npDot volumes (M.map fun m => 1 / m))⁻¹ := by positivity
  refine ⟨?_, ?_⟩
  · show (npDot volumes (M.map fun m => 1 / m))⁻¹ ≤
      (1 / 2) * ((npDot volumes (M.map fun m => 1 / m))⁻¹ + npDot volumes M)
    linarith
  · show (1 / 2) * ((npDot volumes (M.map fun m => 1 / m))⁻¹ + npDot volumes M) ≤
      npDot volumes M
    linarith

/-- Witness for `VRH_reuss_le_hill_le_voigt` with `volumes = [1/2, 1/2]`,
`M = [1, 2]`. -/
theorem VRH_reuss_le_hill_le_voigt_witness :
    (VRH [(1 : ℚ)/2, 1/2] [1, 2]).2.1 ≤ (VRH [(1 : ℚ)/2, 1/2] [1, 2]).2.2 ∧
      (VRH [(1 : ℚ)/2, 1/2] [1, 2]).2.2 ≤ (VRH [(1 : ℚ)/2, 1/2] [1, 2]).1 :=
  VRH_reuss_le_hill_le_voigt [(1 : ℚ)/2, 1/2] [1, 2]
    (by norm_num) (by norm_num) (by norm_num) (by norm_num)

/-- Core inequality for the bulk-modulus component of the Hashin-Shtrikman
bounds, stated on the raw branch expressions of `HS`. -/
theorem HS_K_core (f K1 K2 G1 G2 ku kl : ℚ)
    (hf0 : 0 ≤ f) (hf1 : f ≤ 1) (hK2 : 0 < K2) (hK : K2 ≤ K1)
    (hG2 : 0 < G2) (hG : G2 ≤ G1)
    (a1 : ¬K2 - K1 = 0) (a2 : ¬K1 + 4 * G1 / 3 = 0)
    (b1 : ¬K1 - K2 = 0) (b2 : ¬K2 + 4 * G2 / 3 = 0)
    (hku : K1 + (1 - f) / ((K2 - K1)⁻¹ + f * (K1 + 4 * G1 / 3)⁻¹) = ku)
    (hkl : K2 + f / ((K1 - K2)⁻¹ + (1 - f) * (K2 + 4 * G2 / 3)⁻¹) = kl) :
    kl ≤ ku := by
  have hf1' : (0 : ℚ) ≤ 1 - f := by linarith
  have hSu : (K2 - K1)⁻¹ + f * (K1 + 4 * G1 / 3)⁻¹ =
      (1 * (K1 + 4 * G1 / 3) + (K2 - K1) * f) / ((K2 - K1) * (K1 + 4 * G1 / 3)) := by
    rw [inv_eq_one_div, inv_eq_one_div, mul_one_div, div_add_div _ _ a1 a2]
  have hSl : (K1 - K2)⁻¹ + (1 - f) * (K2 + 4 * G2 / 3)⁻¹ =
      (1 * (K2 + 4 * G2 / 3) + (K1 - K2) * (1 - f)) / ((K1 - K2) * (K2 + 4 * G2 / 3)) := by
    rw [inv_eq_one_div, inv_eq_one_div, mul_one_div, div_add_div _ _ b1 b2]
  have hNu : (0 : ℚ) < 1 * (K1 + 4 * G1 / 3) + (K2 - K1) * f := by
    nlinarith [mul_nonneg hf0 (show (0 : ℚ) ≤ K2 by linarith)]
  have hNl : (0 : ℚ) < 1 * (K2 + 4 * G2 / 3) + (K1 - K2) * (1 - f) := by
    nlinarith [mul_nonneg (show (0 : ℚ) ≤ K1 - K2 by linarith) hf1']
  have hu_mul : (ku - K1) * (1 * (K1 + 4 * G1 / 3) + (K2 - K1) * f) =
      (1 - f) * ((K2 - K1) * (K1 + 4 * G1 / 3)) := by
    have e : ku - K1 = (1 - f) * ((K2 - K1) * (K1 + 4 * G1 / 3)) /
        (1 * (K1 + 4 * G1 / 3) + (K2 - K1) * f) := by
      rw [← hku, hSu, div_div_eq_mul_div]
      ring
    rw [e, div_mul_cancel₀ _ hNu.ne']
  have hl_mul : (kl - K2) * (1 * (K2 + 4 * G2 / 3) + (K1 - K2) * (1 - f)) =
      f * ((K1 - K2) * (K2 + 4 * G2 / 3)) := by
    have e : kl - K2 = f * ((K1 - K2) * (K2 + 4 * G2 / 3)) /
        (1 * (K2 + 4 * G2 / 3) + (K1 - K2) * (1 - f)) := by
      rw [← hkl, hSl, div_div_eq_mul_div]
      ring
    rw [e, div_mul_cancel₀ _ hNl.ne']
  have hprod : (ku - kl) * ((1 * (K1 + 4 * G1 / 3) + (K2 - K1) * f) *
      (1 * (K2 + 4 * G2 / 3) + (K1 - K2) * (1 - f))) =
      f * (1 - f) * (K1 - K2) ^ 2 * (4 * G1 / 3 - 4 * G2 / 3) := by
    linear_combination (1 * (K2 + 4 * G2 / 3) + (K1 - K2) * (1 - f)) * hu_mul -
      (1 * (K1 + 4 * G1 / 3) + (K2 - K1) * f) * hl_mul
  have hnum : (0 : ℚ) ≤ f * (1 - f) * (K1 - K2) ^ 2 * (4 * G1 / 3 - 4 * G2 / 3) := by
    nlinarith [mul_nonneg (mul_nonneg (mul_nonneg hf0 hf1') (sq_nonneg (K1 - K2)))
      (show (0 : ℚ) ≤ 4 * G1 / 3 - 4 * G2 / 3 by linarith)]
  have hposdd : (0 : ℚ) < (1 * (K1 + 4 * G1 / 3) + (K2 - K1) * f) *
      (1 * (K2 + 4 * G2 / 3) + (K1 - K2) * (1 - f)) := mul_pos hNu hNl
  have hfin : ku - kl = f * (1 - f) * (K1 - K2) ^ 2 * (4 * G1 / 3 - 4 * G2 / 3) /
      ((1 * (K1 + 4 * G1 / 3) + (K2 - K1) * f) *
        (1 * (K2 + 4 * G2 / 3) + (K1 - K2) * (1 - f))) :=
    (eq_div_iff hposdd.ne').mpr hprod
  have hge : (0 : ℚ) ≤ ku - kl := by
    rw [hfin]
    exact div_nonneg hnum hposdd.le
  linarith

/-- Core inequality for the shear-modulus component of the Hashin-Shtrikman
bounds, stated on the raw branch expressions of `HS`. -/
theorem HS_G_core (f K1 K2 G1 G2 gu gl : ℚ)
    (hf0 : 0 ≤ f) (hf1 : f ≤ 1) (hK2 : 0 < K2) (hK : K2 ≤ K1)
    (hG2 : 0 < G2) (hG : G2 ≤ G1)
    (a4 : ¬5 * G1 * (K1 + 4 * G1 / 3) = 0) (a5 : ¬G2 - G1 = 0)
    (b4 : ¬5 * G2 * (K2 + 4 * G2 / 3) = 0) (b5 : ¬G1 - G2 = 0)
    (hgu : G1 + (1 - f) / ((G2 - G1)⁻¹ + 2 * f * ((K1 + 2 * G1) / (5 * G1 * (K1 + 4 * G1 / 3)))) = gu)
    (hgl : G2 + f / ((G1 - G2)⁻¹ + 2 * (1 - f) * ((K2 + 2 * G2) / (5 * G2 * (K2 + 4 * G2 / 3)))) = gl) :
    gl ≤ gu := by
  have hK1pos : (0 : ℚ) < K1 := lt_of_lt_of_le hK2 hK
  have hG1pos : (0 : ℚ) < G1 := lt_of_lt_of_le hG2 hG
  have hf1' : (0 : ℚ) ≤ 1 - f := by linarith
  have hSu : (G2 - G1)⁻¹ + 2 * f * ((K1 + 2 * G1) / (5 * G1 * (K1 + 4 * G1 / 3))) =
      (1 * (5 * G1 * (K1 + 4 * G1 / 3)) + (G2 - G1) * (2 * f * (K1 + 2 * G1))) /
        ((G2 - G1) * (5 * G1 * (K1 + 4 * G1 / 3))) := by
    rw [inv_eq_one_div, ← mul_div_assoc, div_add_div _ _ a5 a4]
  have hSl : (G1 - G2)⁻¹ + 2 * (1 - f) * ((K2 + 2 * G2) / (5 * G2 * (K2 + 4 * G2 / 3))) =
      (1 * (5 * G2 * (K2 + 4 * G2 / 3)) + (G1 - G2) * (2 * (1 - f) * (K2 + 2 * G2))) /
        ((G1 - G2) * (5 * G2 * (K2 + 4 * G2 / 3))) := by
    rw [inv_eq_one_div, ← mul_div_assoc, div_add_div _ _ b5 b4]
  have hfd : f * (G1 - G2) ≤ G1 := by
    have := mul_le_mul_of_nonneg_right hf1 (show (0 : ℚ) ≤ G1 - G2 by linarith)
    linarith
  have hNu : (0 : ℚ) < 1 * (5 * G1 * (K1 + 4 * G1 / 3)) + (G2 - G1) * (2 * f * (K1 + 2 * G1)) := by
    have hstep := mul_le_mul_of_nonneg_right hfd (show (0 : ℚ) ≤ K1 + 2 * G1 by linarith)
    nlinarith [mul_pos hK1pos hG1pos, mul_pos hG1pos hG1pos]
  have hNl : (0 : ℚ) < 1 * (5 * G2 * (K2 + 4 * G2 / 3)) + (G1 - G2) * (2 * (1 - f) * (K2 + 2 * G2)) := by
    nlinarith [mul_pos hK2 hG2, mul_pos hG2 hG2,
      mul_nonneg (mul_nonneg (show (0 : ℚ) ≤ G1 - G2 by linarith) hf1')
        (show (0 : ℚ) ≤ K2 + 2 * G2 by linarith)]
  have hgu_mul : (gu - G1) * (1 * (5 * G1 * (K1 + 4 * G1 / 3)) + (G2 - G1) * (2 * f * (K1 + 2 * G1))) =
      (1 - f) * ((G2 - G1) * (5 * G1 * (K1 + 4 * G1 / 3))) := by
    have e : gu - G1 = (1 - f) * ((G2 - G1) * (5 * G1 * (K1 + 4 * G1 / 3))) /
        (1 * (5 * G1 * (K1 + 4 * G1 / 3)) + (G2 - G1) * (2 * f * (K1 + 2 * G1))) := by
      rw [← hgu, hSu, div_div_eq_mul_div]
      ring
    rw [e, div_mul_cancel₀ _ hNu.ne']
  have hgl_mul : (gl - G2) * (1 * (5 * G2 * (K2 + 4 * G2 / 3)) + (G1 - G2) * (2 * (1 - f) * (K2 + 2 * G2))) =
      f * ((G1 - G2) * (5 * G2 * (K2 + 4 * G2 / 3))) := by
    have e : gl - G2 = f * ((G1 - G2) * (5 * G2 * (K2 + 4 * G2 / 3))) /
        (1 * (5 * G2 * (K2 + 4 * G2 / 3)) + (G1 - G2) * (2 * (1 - f) * (K2 + 2 * G2))) := by
      rw [← hgl, hSl, div_div_eq_mul_div]
      ring
    rw [e, div_mul_cancel₀ _ hNl.ne']
  have hNz : (0 : ℚ) ≤ G1 * (9 * K1 + 8 * G1) * (K2 + 2 * G2) -
      G2 * (9 * K2 + 8 * G2) * (K1 + 2 * G1) := by
    have haux : (0 : ℚ) ≤ 9 * K1 * K2 + 8 * K2 * (G1 + G2) + 16 * G1 * G2 := by
      nlinarith [mul_pos hK1pos hK2, mul_pos hK2 hG1pos, mul_pos hK2 hG2,
        mul_pos hG1pos hG2]
    nlinarith [mul_nonneg (mul_nonneg (sub_nonneg.mpr hK) hG2.le)
        (show (0 : ℚ) ≤ 9 * G1 - 4 * G2 by linarith),
      mul_nonneg (sub_nonneg.mpr hG) haux]
  have hprod : (gu - gl) * ((1 * (5 * G1 * (K1 + 4 * G1 / 3)) + (G2 - G1) * (2 * f * (K1 + 2 * G1))) *
      (1 * (5 * G2 * (K2 + 4 * G2 / 3)) + (G1 - G2) * (2 * (1 - f) * (K2 + 2 * G2)))) =
      2 / 3 * f * (1 - f) * (G1 - G2) ^ 2 * (G1 * (9 * K1 + 8 * G1) * (K2 + 2 * G2) -
        G2 * (9 * K2 + 8 * G2) * (K1 + 2 * G1)) := by
    linear_combination (1 * (5 * G2 * (K2 + 4 * G2 / 3)) + (G1 - G2) * (2 * (1 - f) * (K2 + 2 * G2))) * hgu_mul -
      (1 * (5 * G1 * (K1 + 4 * G1 / 3)) + (G2 - G1) * (2 * f * (K1 + 2 * G1))) * hgl_mul
  have hnum : (0 : ℚ) ≤ 2 / 3 * f * (1 - f) * (G1 - G2) ^ 2 *
      (G1 * (9 * K1 + 8 * G1) * (K2 + 2 * G2) - G2 * (9 * K2 + 8 * G2) * (K1 + 2 * G1)) := by
    nlinarith [mul_nonneg (mul_nonneg (mul_nonneg hf0 hf1') (sq_nonneg (G1 - G2))) hNz]
  have hposdd : (0 : ℚ) < (1 * (5 * G1 * (K1 + 4 * G1 / 3)) + (G2 - G1) * (2 * f * (K1 + 2 * G1))) *
      (1 * (5 * G2 * (K2 + 4 * G2 / 3)) + (G1 - G2) * (2 * (1 - f) * (K2 + 2 * G2))) :=
    mul_pos hNu hNl
  have hfin : gu - gl = 2 / 3 * f * (1 - f) * (G1 - G2) ^ 2 *
      (G1 * (9 * K1 + 8 * G1) * (K2 + 2 * G2) - G2 * (9 * K2 + 8 * G2) * (K1 + 2 * G1)) /
      ((1 * (5 * G1 * (K1 + 4 * G1 / 3)) + (G2 - G1) * (2 * f * (K1 + 2 * G1))) *
        (1 * (5 * G2 * (K2 + 4 * G2 / 3)) + (G1 - G2) * (2 * (1 - f) * (K2 + 2 * G2)))) :=
    (eq_div_iff hposdd.ne').mpr hprod
  have hge : (0 : ℚ) ≤ gu - gl := by
    rw [hfin]
    exact div_nonneg hnum hposdd.le
  linarith

/-- C8: whenever both bound evaluations of `HS` return (no division raises),
with `K1 ≥ K2 > 0`, `G1 ≥ G2 > 0` and `f ∈ [0, 1]`, both components of the
upper bound dominate the corresponding components of the lower bound. -/
theorem HS_upper_ge_lower (f K1 K2 G1 G2 ku gu kl gl : ℚ)
    (hf0 : 0 ≤ f) (hf1 : f ≤ 1) (hK2 : 0 < K2) (hK : K2 ≤ K1)
    (hG2 : 0 < G2) (hG : G2 ≤ G1)
    (hu : HS f K1 K2 G1 G2 "upper" = some (ku, gu))
    (hl : HS f K1 K2 G1 G2 "lower" = some (kl, gl)) :
    kl ≤ ku ∧ gl ≤ gu := by
  unfold HS at hu hl
  rw [if_pos rfl] at hu
  rw [if_neg (show ¬(("lower" : String) = "upper") by decide)] at hl
  split_ifs at hu with a1 a2 a3 a4 a5 a6
  split_ifs at hl with b1 b2 b3 b4 b5 b6
  rw [Option.some.injEq, Prod.mk.injEq] at hu hl
  obtain ⟨hku, hgu⟩ := hu
  obtain ⟨hkl, hgl⟩ := hl
  exact ⟨HS_K_core f K1 K2 G1 G2 ku kl hf0 hf1 hK2 hK hG2 hG a1 a2 b1 b2 hku hkl,
    HS_G_core f K1 K2 G1 G2 gu gl hf0 hf1 hK2 hK hG2 hG a4 a5 b4 b5 hgu hgl⟩

/-- Witness for `HS_upper_ge_lower` at `f = 1/2`, `K1 = 2`, `K2 = 1`,
`G1 = 2`, `G2 = 1`: the upper bound is `(36/25, 87/61)` and the lower bound
`(24/17, 123/88)`. -/
theorem HS_upper_ge_lower_witness :
    (24 : ℚ)/17 ≤ 36/25 ∧ (123 : ℚ)/88 ≤ 87/61 :=
  HS_upper_ge_lower (1/2) 2 1 2 1 (36/25) (87/61) (24/17) (123/88)
    (by norm_num) (by norm_num) (by norm_num) (by norm_num) (by norm_num) (by norm_num)
    (by norm_num [HS])
    (by norm_num [HS, show ¬(("lower" : String) = "upper") from by decide])

/-- C10: any `bound` other than the exact string `"upper"` (for example the
misspelling `"Upper"`) silently selects the lower-bound branch of `HS`; no
invalid-flag error exists in the code. -/
theorem HS_invalid_bound_falls_to_lower (f K1 K2 G1 G2 : ℚ) (bound : String)
    (h : bound ≠ "upper") :
    HS f K1 K2 G1 G2 bound = HS f K1 K2 G1 G2 "lower" := by
  unfold HS
  rw [if_neg h, if_neg (show ¬(("lower" : String) = "upper") by decide)]

/-- Witness for `HS_invalid_bound_falls_to_lower` at `bound = "Upper"`. -/
theorem HS_invalid_bound_falls_to_lower_witness :
    ("Upper" ≠ "upper") ∧ HS ((1 : ℚ)/2) 3 1 2 1 "Upper" = HS ((1 : ℚ)/2) 3 1 2 1 "lower" :=
  ⟨by decide, HS_invalid_bound_falls_to_lower ((1 : ℚ)/2) 3 1 2 1 "Upper" (by decide)⟩

end EM
